import Mathlib

/- Formal model of the stegano PNG steganography core (png.go): the header
codec built by initHCoder/headerBytes, the capacity model, and the cell-level
Conceal and Reveal loops. Pure Go functions become Lean functions on Nat/Int;
Go's machine int division/modulus is Int.tdiv/Int.tmod (truncation toward
zero); Go runtime panics (index out of range, division by zero) are modelled
explicitly. The image codec boundary is replaced by pixel grids: a carrier
arrives as the alpha-premultiplied 16-bit RGBA values Color.RGBA() yields, and
the PNG write/re-read between Conceal and Reveal is the NRGBA premultiplication
premultView. -/

set_option maxRecDepth 100000

/-- Error kinds of package stegano: ErrCapacityMax and ErrCapacityOverflow. -/
inductive SErr where
  | capacityMax
  | capacityOverflow
deriving DecidableEq, Repr

deriving instance DecidableEq for Except

/-- Pixel as the four values returned by Go's Color.RGBA(): alpha-premultiplied
16-bit quantities in 0..65535 (for Conceal's output grid the fields hold the
8-bit NRGBA values instead). -/
structure Pixel where
  r : Nat
  g : Nat
  b : Nat
  a : Nat
deriving DecidableEq, Repr

/-- Rectangular pixel grid in raster order: pixel (x, y) is pixels[x + y*width]. -/
structure Image where
  width : Nat
  height : Nat
  pixels : List Pixel
deriving DecidableEq, Repr

/-- CalculateCapacity from png.go: width * height * channels * bitsPerByte / 8. -/
def CalculateCapacity (width height channels bitsPerByte : Nat) : Nat :=
  width * height * channels * bitsPerByte / 8

/-- The switch in initHCoder, applied to one value i: the class index assigned
to i, or none for i = 0 (every case fails because i/n > 0 does not hold). -/
def classifyByte (i : Nat) : Option Nat :=
  if i % 4 = 0 ∧ i / 4 > 0 then some 3
  else if i % 3 = 0 ∧ i / 3 > 0 then some 2
  else if i % 2 = 0 ∧ i / 2 > 0 then some 1
  else if i % 1 = 0 ∧ i / 1 > 0 then some 0
  else none

/-- hcoder[c] as built by initHCoder: the values among 0..255 assigned to class
c, in increasing order (the loop appends in order of i). -/
def hcoderList (c : Nat) : List Nat :=
  (List.range 256).filter (fun i => classifyByte i = some c)

/-- hmap as built by initHCoder. A Go map lookup of an absent key (only key 0
is absent) yields the zero value 0, which getD 0 reproduces. -/
def hmapM (v : Nat) : Nat :=
  (classifyByte v).getD 0

/-- Number of binary digits of n, written with an explicit recursion bound so
that the kernel can evaluate it (n itself always suffices as fuel). -/
def bitlenAux : Nat → Nat → Nat
  | 0, _ => 0
  | fuel + 1, n => if n = 0 then 0 else bitlenAux fuel (n / 2) + 1

/-- Length of fmt.Sprintf("%08b", dlen): the number of binary digits of dlen,
padded to a minimum width of 8. -/
def bitcount (dlen : Nat) : Nat :=
  max 8 (if dlen = 0 then 1 else bitlenAux dlen dlen)

lemma bitlenAux_zero (fuel : Nat) : bitlenAux fuel 0 = 0 := by
  cases fuel <;> rfl

lemma bitlenAux_eq_log2 (fuel : Nat) : ∀ n, 1 ≤ n → n ≤ fuel →
    bitlenAux fuel n = Nat.log2 n + 1 := by
  induction fuel with
  | zero => intro n h1 h2; omega
  | succ fuel ih =>
    intro n h1 h2
    show (if n = 0 then 0 else bitlenAux fuel (n / 2) + 1) = Nat.log2 n + 1
    rw [if_neg (by omega)]
    rcases Nat.lt_or_ge n 2 with h | h
    · have hn1 : n = 1 := by omega
      subst hn1
      rw [show (1 : Nat) / 2 = 0 from rfl, bitlenAux_zero]
      have hlog : Nat.log2 1 = 0 := by
        unfold Nat.log2
        norm_num
      rw [hlog]
    · rw [ih (n / 2) (by omega) (by omega)]
      conv_rhs => rw [Nat.log2]
      rw [if_pos h]

lemma bitcount_eq_log2 (dlen : Nat) :
    bitcount dlen = max 8 (if dlen = 0 then 1 else Nat.log2 dlen + 1) := by
  unfold bitcount
  by_cases h : dlen = 0
  · rw [if_pos h, if_pos h]
  · rw [if_neg h, if_neg h, bitlenAux_eq_log2 dlen dlen (by omega) (by omega)]

/-- bytecount in headerBytes: bitcount / 8, rounded up when bitcount % 8 > 0. -/
def bytecount (dlen : Nat) : Nat :=
  bitcount dlen / 8 + (if bitcount dlen % 8 > 0 then 1 else 0)

/-- The little-endian length bytes built by the headerBytes loop
b[bi] |= uint8(l & 255); l >>= 8. -/
def leBytes : Nat → Nat → List Nat
  | _, 0 => []
  | l, n + 1 => (l &&& 255) :: leBytes (l >>> 8) n

/-- Class selected by the switch at the end of headerBytes (the index into
hcoder the random index byte is drawn from). -/
def classOf (dlen : Nat) : Nat :=
  if dlen < 2 ^ 8 then 0
  else if dlen < 2 ^ 16 then 1
  else if dlen < 2 ^ 24 then 2
  else 3

/-- headerBytes from png.go. The pseudo-random draw from the selected class is
modelled by the parameter idx; theorems restrict idx to the class the switch
selects, hcoderList (classOf dlen). Note the source guard is dlen > 2^32
(max := int(math.Pow(2, 32))), and for dlen = 2^32 exactly no switch case
matches, so no index byte is prepended. -/
def headerBytesM (dlen idx : Nat) : Except SErr (List Nat) :=
  if dlen > 2 ^ 32 then .error .capacityMax
  else
    let b := leBytes dlen (bytecount dlen)
    if dlen < 2 ^ 8 then .ok (idx :: b)
    else if dlen < 2 ^ 16 then .ok (idx :: b)
    else if dlen < 2 ^ 24 then .ok (idx :: b)
    else if dlen < 2 ^ 32 then .ok (idx :: b)
    else .ok b

/-- Normalization of a premultiplied 16-bit channel to a byte: uint8(v / 256). -/
def n16 (v : Nat) : Nat := v / 256

/-- The two-iteration ebi loop of Conceal on one channel byte v: bit sbi of
byteVal replaces bit 0 of v and bit sbi+1 replaces bit 1, via px &^= uint8(ebi+1)
(AND with the uint8 complement) or px |= uint8(ebi+1). -/
def concealChunk (v byteVal sbi : Nat) : Nat :=
  let v1 := if byteVal &&& (1 <<< sbi) = 0 then v &&& (255 ^^^ 1) else v ||| 1
  if byteVal &&& (1 <<< (sbi + 1)) = 0 then v1 &&& (255 ^^^ 2) else v1 ||| 2

/-- The stride computed by Conceal,
int(float64(cap-len(hdata)) / float64(len(data)) * 4), which for
1 ≤ len(data) and len(hdata) ≤ cap is the exact (cap - hlen) * 4 / dlen
(the float64 quotient is exact to 53 bits and truncation commutes with the
final *4). For dlen = 0 the Go conversion of the infinite quotient is a
platform-defined negative sentinel whose only observable consequence — no cell
is ever written, since the write guard dataByteIndex < len(data) always fails —
coincides with the value 0 used here. -/
def concealStep (cap hlen dlen : Nat) : Nat :=
  (cap - hlen) * 4 / dlen

/-- One channel of Conceal's pixel loop: v is the normalized source channel at
cell abi; returns the output channel value. The write guard is the source's
sbi < 8 && dbi < len(data) — note it tests len(data) even for header cells. -/
def concealCellVal (hdata data : List Nat) (step abi v : Nat) : Nat :=
  let hl4 := hdata.length * 4
  let dbi := if abi < hl4 then abi / 4 else (abi - hl4) / step
  let sbi := if abi < hl4 then abi % 4 * 2 else (abi - hl4) % step * 2
  if sbi < 8 ∧ dbi < data.length then
    concealChunk v (if abi < hl4 then hdata.getD dbi 0 else data.getD dbi 0) sbi
  else v

/-- One pixel of Conceal's loop: channels R,G,B at cells pxi*3, pxi*3+1,
pxi*3+2; alpha is normalized and passed through. -/
def concealPixel (hdata data : List Nat) (step pxi : Nat) (p : Pixel) : Pixel :=
  { r := concealCellVal hdata data step (pxi * 3 + 0) (n16 p.r)
    g := concealCellVal hdata data step (pxi * 3 + 1) (n16 p.g)
    b := concealCellVal hdata data step (pxi * 3 + 2) (n16 p.b)
    a := n16 p.a }

/-- Conceal from png.go, with the image codec boundary replaced by pixel grids.
The y/x/ci loops visit cells abi = (x + y*width)*3 + ci in increasing raster
order, i.e. pixel abi/3 and channel abi%3; the capacity test is Go int
arithmetic, hence the comparison in ℤ. On either error no image is produced. -/
def concealM (data : List Nat) (img : Image) (idx : Nat) : Except SErr Image :=
  match headerBytesM data.length idx with
  | .error e => .error e
  | .ok hdata =>
    let cap := CalculateCapacity img.width img.height 3 2
    if (data.length : Int) > (cap : Int) - hdata.length then .error .capacityOverflow
    else .ok
      { width := img.width
        height := img.height
        pixels := img.pixels.enum.map (fun pe =>
          concealPixel hdata data (concealStep cap hdata.length data.length) pe.1 pe.2) }

/-- The nested loop in Reveal that assembles the content length from the
little-endian bytes hdata[1:]: clen |= (cld[i] & (1 << ii)) << (i*8). -/
def clenBits (cld : List Nat) : Nat :=
  (List.range cld.length).foldl (fun clen i =>
    (List.range 8).foldl (fun clen ii =>
      clen ||| ((cld.getD i 0 &&& (1 <<< ii)) <<< (i * 8))) clen) 0

/-- The stride recomputed by Reveal,
int(float64(cap-len(hdata)) / float64(clen) * 4), in Go int arithmetic (tdiv
truncates toward zero, as Go's / does). For clen = 0 the float division yields
an infinity (or NaN) and the Go conversion to int is platform-defined; on the
reference platforms it yields the minimal int64, kept here as -(2^63). Any
negative stride makes every later content read compute dataByteIndex 0 by
truncated division, which never passes the guard dbi < len(data) = 0. -/
def revealStep (cap hlen clen : Nat) : Int :=
  if clen = 0 then -(2 ^ 63) else (((cap : Int) - hlen) * 4).tdiv clen

/-- State of Reveal's cell loop: the byte accumulator dbyte, the header buffer
once allocated, the payload buffer once allocated, the current stride, the
decoded content length, and whether a Go runtime panic has occurred. -/
structure RevealState where
  dbyte : Nat
  hdata : Option (List Nat)
  data : Option (List Nat)
  step : Int
  clen : Nat
  panicked : Bool
deriving DecidableEq, Repr

/-- The bi == 7 branch of Reveal's ebi loop: the completed byte b is stored into
the header buffer (allocated from the first byte's class via hmap when dbi == 0)
or into the payload buffer; completing the last header byte decodes clen,
allocates the payload buffer and recomputes the stride. A negative or
out-of-range store index is a Go runtime panic. -/
def revealFinish (cap abi : Nat) (dbi : Int) (st : RevealState) (b : Nat) : RevealState :=
  if st.hdata.isNone ∨ abi < (st.hdata.getD []).length * 4 then
    let hd0 := if dbi = 0 then List.replicate (hmapM b + 1 + 1) 0 else st.hdata.getD []
    let hd1 := hd0.set dbi.toNat b
    if dbi = (hd1.length : Int) - 1 then
      let clen1 := st.clen ||| clenBits (hd1.drop 1)
      { dbyte := 0, hdata := some hd1, data := some (List.replicate clen1 0)
        step := revealStep cap hd1.length clen1, clen := clen1, panicked := st.panicked }
    else
      { st with dbyte := 0, hdata := some hd1 }
  else
    if dbi < 0 ∨ ((st.data.getD []).length : Int) ≤ dbi then
      { st with panicked := true }
    else
      { st with dbyte := 0, data := some ((st.data.getD []).set dbi.toNat b) }

/-- The guarded body of Reveal's per-cell work: the two-iteration ebi loop that
extracts the cell's two low bits of v into dbyte at positions sbi and sbi+1
(bit = ebit << (bi/2*2)) and finishes a byte when bi == 7. -/
def revealAccum (cap abi : Nat) (dbi : Int) (sbi : Nat) (st : RevealState) (v : Nat) :
    RevealState :=
  if sbi < 8 ∧ (st.data.isNone ∨ dbi < ((st.data.getD []).length : Int)) then
    let b1 := st.dbyte ||| ((v &&& (1 <<< 0)) <<< (sbi / 2 * 2))
    let st1 := if sbi + 0 = 7 then revealFinish cap abi dbi { st with dbyte := b1 } b1
               else { st with dbyte := b1 }
    let b2 := st1.dbyte ||| ((v &&& (1 <<< 1)) <<< ((sbi + 1) / 2 * 2))
    if sbi + 1 = 7 then revealFinish cap abi dbi { st1 with dbyte := b2 } b2
    else { st1 with dbyte := b2 }
  else st

/-- One cell of Reveal's loop (png.go lines 270-342): v is the normalized
channel value at cell abi. Header-region indices divide by the constant 4;
content-region indices divide by the current stride with Go semantics —
truncation toward zero, and division by a zero stride is a runtime panic. -/
def revealCellStep (cap : Nat) (st : RevealState) (abi : Nat) (v : Nat) : RevealState :=
  if st.panicked then st else
  let hl4 := (st.hdata.getD []).length * 4
  if st.hdata.isNone ∨ abi < hl4 then
    revealAccum cap abi ((abi / 4 : Nat) : Int) (abi % 4 * 2) st v
  else
    if st.step = 0 then { st with panicked := true } else
    revealAccum cap abi (((abi - hl4 : Nat) : Int).tdiv st.step)
      ((((abi - hl4 : Nat) : Int).tmod st.step).toNat * 2) st v

/-- Normalized channel value of cell abi: channel abi%3 of pixel abi/3. -/
def cellValN (img : Image) (abi : Nat) : Nat :=
  let p := img.pixels.getD (abi / 3) ⟨0, 0, 0, 0⟩
  if abi % 3 = 0 then n16 p.r else if abi % 3 = 1 then n16 p.g else n16 p.b

/-- Reveal from png.go: fold the cell loop over all width*height*3 cells in
raster order. The result none models a Go runtime panic; otherwise the bytes
written to the writer (w.Write(data) — the empty slice when data is still nil).
No failure path other than a panic exists in the source. -/
def revealM (img : Image) : Option (List Nat) :=
  let cap := CalculateCapacity img.width img.height 3 2
  let final := (List.range (img.width * img.height * 3)).foldl
    (fun st abi => revealCellStep cap st abi (cellValN img abi))
    { dbyte := 0, hdata := none, data := none, step := 4, clen := 0, panicked := false }
  if final.panicked then none else some (final.data.getD [])

/-- color.NRGBA.RGBA(): an 8-bit straight channel c8 with alpha a8 expands to
the premultiplied 16-bit value (c8 | c8<<8) * a8 / 255. -/
def rgba16 (c8 a8 : Nat) : Nat :=
  (c8 ||| (c8 <<< 8)) * a8 / 255

/-- Re-decoding the PNG written by Conceal: every stored 8-bit straight NRGBA
pixel reappears through Color.RGBA() alpha-premultiplied. -/
def premultView (img : Image) : Image :=
  { img with pixels := img.pixels.map (fun p =>
      { r := rgba16 p.r p.a, g := rgba16 p.g p.a, b := rgba16 p.b p.a
        a := p.a ||| (p.a <<< 8) }) }

/- Bit-level helper lemmas. -/

lemma and254_eq : ∀ v < 256, v &&& 254 = v / 2 * 2 := by decide

lemma or1_eq : ∀ v < 256, v ||| 1 = v / 2 * 2 + 1 := by decide

lemma and253_eq : ∀ w < 256, w &&& 253 = w / 4 * 4 + w % 2 := by decide

lemma or2_eq : ∀ w < 256, w ||| 2 = w / 4 * 4 + 2 + w % 2 := by decide

lemma and_one_shl (b s : Nat) : b &&& (1 <<< s) = b / 2 ^ s % 2 * 2 ^ s := by
  rw [Nat.one_shiftLeft, Nat.and_two_pow, Nat.toNat_testBit]

lemma and2_eq (x : Nat) : x &&& 2 = x / 2 % 2 * 2 := by
  have h := Nat.and_two_pow x 1
  rw [Nat.toNat_testBit] at h
  norm_num at h
  exact h

/-- Arithmetic characterization of the two-bit write: the upper six bits of v
survive and the chunk of byteVal at bits s, s+1 lands in the two low bits. -/
lemma chunk_eq (v b s : Nat) (hv : v < 256) :
    concealChunk v b s = v / 4 * 4 + b / 2 ^ s % 4 := by
  have e2 : b / 2 ^ (s + 1) = b / 2 ^ s / 2 := by
    rw [pow_succ, Nat.div_div_eq_div_mul]
  have h0 : b &&& (1 <<< s) = b / 2 ^ s % 2 * 2 ^ s := and_one_shl b s
  have h1 : b &&& (1 <<< (s + 1)) = b / 2 ^ s / 2 % 2 * 2 ^ (s + 1) := by
    rw [and_one_shl, e2]
  have hP : (2 : Nat) ^ s ≠ 0 := (Nat.pos_pow_of_pos s (by norm_num)).ne'
  have hQ : (2 : Nat) ^ (s + 1) ≠ 0 := (Nat.pos_pow_of_pos (s + 1) (by norm_num)).ne'
  have hx2 : b / 2 ^ s % 2 = 0 ∨ b / 2 ^ s % 2 = 1 := Nat.mod_two_eq_zero_or_one _
  have hy2 : b / 2 ^ s / 2 % 2 = 0 ∨ b / 2 ^ s / 2 % 2 = 1 := Nat.mod_two_eq_zero_or_one _
  have hxm : b / 2 ^ s % 4 = b / 2 ^ s % 2 + 2 * (b / 2 ^ s / 2 % 2) := by omega
  have e255a : (255 ^^^ 1 : Nat) = 254 := by decide
  have e255b : (255 ^^^ 2 : Nat) = 253 := by decide
  rcases hx2 with hx | hx <;> rcases hy2 with hy | hy <;>
    simp only [concealChunk, h0, h1, hx, hy, Nat.zero_mul, Nat.one_mul,
      eq_self_iff_true, if_true, if_neg hP, if_neg hQ, e255a, e255b]
  · have l1 := and254_eq v hv
    have l2 := and253_eq (v &&& 254) (by omega)
    omega
  · have l1 := and254_eq v hv
    have l2 := or2_eq (v &&& 254) (by omega)
    omega
  · have l1 := or1_eq v hv
    have l2 := and253_eq (v ||| 1) (by omega)
    omega
  · have l1 := or1_eq v hv
    have l2 := or2_eq (v ||| 1) (by omega)
    omega

lemma chunk_div4 (v b s : Nat) (hv : v < 256) : concealChunk v b s / 4 = v / 4 := by
  rw [chunk_eq v b s hv]; omega

lemma chunk_lt (v b s : Nat) (hv : v < 256) : concealChunk v b s < 256 := by
  rw [chunk_eq v b s hv]; omega

lemma accum_bits : ∀ b < 256, ∀ t < 4,
    (b % 2 ^ (t * 2) ||| ((b / 2 ^ (t * 2) % 4 % 2) <<< (t * 2))) |||
      ((b / 2 ^ (t * 2) % 4 / 2 * 2) <<< (t * 2)) = b % 2 ^ (t * 2 + 2) := by decide

/-- Reading back a cell written by concealChunk extends the accumulator from t
chunks of b to t+1 chunks of b. -/
lemma dbyte_update (w b t : Nat) (ht : t < 4) (hb : b < 256) (hw : w < 256) :
    (b % 2 ^ (t * 2) ||| ((concealChunk w b (t * 2) &&& (1 <<< 0)) <<< (t * 2 / 2 * 2))) |||
      ((concealChunk w b (t * 2) &&& (1 <<< 1)) <<< ((t * 2 + 1) / 2 * 2)) =
      b % 2 ^ (t * 2 + 2) := by
  have e1 : t * 2 / 2 * 2 = t * 2 := by omega
  have e2 : (t * 2 + 1) / 2 * 2 = t * 2 := by omega
  have hv' := chunk_eq w b (t * 2) hw
  have ha1 : concealChunk w b (t * 2) &&& (1 <<< 0) = b / 2 ^ (t * 2) % 4 % 2 := by
    rw [show (1 <<< 0 : Nat) = 1 from rfl, Nat.and_one_is_mod, hv']; omega
  have ha2 : concealChunk w b (t * 2) &&& (1 <<< 1) = b / 2 ^ (t * 2) % 4 / 2 * 2 := by
    rw [show (1 <<< 1 : Nat) = 2 from rfl, and2_eq, hv']; omega
  rw [e1, e2, ha1, ha2]
  exact accum_bits b hb t ht

/-- Processing a written cell that does not finish a byte (chunk index t < 3). -/
lemma revealAccum_mid (cap abi : Nat) (dbi : Int) (st : RevealState) (w b t : Nat)
    (ht : t < 3) (hb : b < 256) (hw : w < 256)
    (hdb : st.dbyte = b % 2 ^ (t * 2))
    (hg : st.data.isNone ∨ dbi < ((st.data.getD []).length : Int)) :
    revealAccum cap abi dbi (t * 2) st (concealChunk w b (t * 2)) =
      { st with dbyte := b % 2 ^ (t * 2 + 2) } := by
  simp only [revealAccum]
  rw [if_pos ⟨by omega, hg⟩, if_neg (by omega : ¬(t * 2 + 0 = 7)),
    if_neg (by omega : ¬(t * 2 + 1 = 7))]
  simp only [hdb]
  congr 1
  exact dbyte_update w b t (by omega) hb hw

/-- Processing a written cell that finishes a byte (chunk index t = 3). -/
lemma revealAccum_fin (cap abi : Nat) (dbi : Int) (st : RevealState) (w b t : Nat)
    (ht : t = 3) (hb : b < 256) (hw : w < 256)
    (hdb : st.dbyte = b % 2 ^ (t * 2))
    (hg : st.data.isNone ∨ dbi < ((st.data.getD []).length : Int)) :
    revealAccum cap abi dbi (t * 2) st (concealChunk w b (t * 2)) =
      revealFinish cap abi dbi { st with dbyte := b } b := by
  simp only [revealAccum]
  rw [if_pos ⟨by omega, hg⟩, if_neg (by omega : ¬(t * 2 + 0 = 7)),
    if_pos (by omega : t * 2 + 1 = 7)]
  simp only [hdb]
  have hfin := dbyte_update w b t (by omega) hb hw
  have hb8 : b % 2 ^ (t * 2 + 2) = b := by rw [ht]; exact Nat.mod_eq_of_lt hb
  rw [hfin, hb8]

/-- Processing a skipped cell (guard fails). -/
lemma revealAccum_skip (cap abi : Nat) (dbi : Int) (sbi : Nat) (st : RevealState) (v : Nat)
    (hg : ¬(sbi < 8 ∧ (st.data.isNone ∨ dbi < ((st.data.getD []).length : Int)))) :
    revealAccum cap abi dbi sbi st v = st := by
  simp only [revealAccum]
  rw [if_neg hg]

lemma leBytes_length (n : Nat) : ∀ l, (leBytes l n).length = n := by
  induction n with
  | zero => intro l; rfl
  | succ n ih => intro l; simp [leBytes, ih]

lemma leBytes_getD (n : Nat) : ∀ l i, i < n → (leBytes l n).getD i 0 = l / 2 ^ (8 * i) % 256 := by
  induction n with
  | zero => intro l i hi; omega
  | succ n ih =>
    intro l i hi
    match i with
    | 0 =>
      show (l &&& 255) = l / 2 ^ (8 * 0) % 256
      have h := Nat.and_pow_two_sub_one_eq_mod l 8
      norm_num at h ⊢
      exact h
    | i + 1 =>
      show (leBytes (l >>> 8) n).getD i 0 = l / 2 ^ (8 * (i + 1)) % 256
      rw [ih (l >>> 8) i (by omega), Nat.shiftRight_eq_div_pow,
        Nat.div_div_eq_div_mul, ← pow_add, show 8 + 8 * i = 8 * (i + 1) by omega]

lemma leBytes_mem_lt (n : Nat) : ∀ l, ∀ b ∈ leBytes l n, b < 256 := by
  induction n with
  | zero => intro l b hb; simp [leBytes] at hb
  | succ n ih =>
    intro l b hb
    simp only [leBytes, List.mem_cons] at hb
    rcases hb with hb | hb
    · have := Nat.and_le_right (n := l) (m := 255)
      omega
    · exact ih (l >>> 8) b hb

lemma shl_lor_distrib (x y m : Nat) : (x <<< m) ||| (y <<< m) = (x ||| y) <<< m := by
  apply Nat.eq_of_testBit_eq
  intro i
  simp [Nat.testBit_lor, Nat.testBit_shiftLeft, Bool.and_or_distrib_left]

lemma lor_lor_shl (c x y m : Nat) : (c ||| (x <<< m)) ||| (y <<< m) = c ||| ((x ||| y) <<< m) := by
  rw [Nat.lor_assoc, shl_lor_distrib]

lemma or_masks : ∀ b < 256,
    ((b &&& (1 <<< 0)) ||| ((b &&& (1 <<< 1)) ||| ((b &&& (1 <<< 2)) |||
      ((b &&& (1 <<< 3)) ||| ((b &&& (1 <<< 4)) ||| ((b &&& (1 <<< 5)) |||
      ((b &&& (1 <<< 6)) ||| (b &&& (1 <<< 7))))))))) = b := by decide

/-- The inner ii-loop of Reveal's length assembly OR-accumulates all eight bits
of one byte, i.e. the whole byte, shifted into place. -/
lemma clen_inner (b : Nat) (hb : b < 256) (c m : Nat) :
    (List.range 8).foldl (fun acc ii => acc ||| ((b &&& (1 <<< ii)) <<< m)) c = c ||| (b <<< m) := by
  have h8 : List.range 8 = [0, 1, 2, 3, 4, 5, 6, 7] := rfl
  rw [h8]
  simp only [List.foldl_cons, List.foldl_nil]
  rw [lor_lor_shl, lor_lor_shl, lor_lor_shl, lor_lor_shl, lor_lor_shl, lor_lor_shl,
    lor_lor_shl, or_masks b hb]

lemma testBit_div_pow (L n m : Nat) : (L / 2 ^ n).testBit m = L.testBit (n + m) := by
  rw [← Nat.shiftRight_eq_div_pow, Nat.testBit_shiftRight]

/-- Merging the next little-endian byte into an assembled low part. -/
lemma mergeByte (L i : Nat) :
    (L % 2 ^ (8 * i)) ||| ((L / 2 ^ (8 * i) % 256) <<< (8 * i)) = L % 2 ^ (8 * i + 8) := by
  apply Nat.eq_of_testBit_eq
  intro j
  have h256 : (256 : Nat) = 2 ^ 8 := by norm_num
  simp only [Nat.testBit_lor, Nat.testBit_mod_two_pow, Nat.testBit_shiftLeft, h256]
  rcases Nat.lt_or_ge j (8 * i) with hj | hj
  · have d1 : decide (j < 8 * i) = true := decide_eq_true hj
    have d2 : decide (j ≥ 8 * i) = false := by simp; omega
    have d3 : decide (j < 8 * i + 8) = true := by simp; omega
    simp [d1, d2, d3]
  · rcases Nat.lt_or_ge j (8 * i + 8) with hj2 | hj2
    · have d1 : decide (j < 8 * i) = false := by simp; omega
      have d2 : decide (j ≥ 8 * i) = true := decide_eq_true hj
      have d3 : decide (j < 8 * i + 8) = true := by simp; omega
      have d4 : decide (j - 8 * i < 8) = true := by simp; omega
      simp only [d1, d2, d3, d4, Bool.false_and, Bool.false_or, Bool.true_and,
        testBit_div_pow]
      congr 1
      omega
    · have d1 : decide (j < 8 * i) = false := by simp; omega
      have d2 : decide (j < 8 * i + 8) = false := by simp; omega
      have d4 : decide (j - 8 * i < 8) = false := by simp; omega
      simp [d1, d2, d4]

lemma clen_outer (cld : List Nat) (L : Nat)
    (hget : ∀ i < cld.length, cld.getD i 0 = L / 2 ^ (8 * i) % 256) :
    ∀ n, n ≤ cld.length →
      (List.range n).foldl (fun clen i =>
        (List.range 8).foldl (fun clen ii =>
          clen ||| ((cld.getD i 0 &&& (1 <<< ii)) <<< (i * 8))) clen) 0 = L % 2 ^ (8 * n) := by
  intro n
  induction n with
  | zero => intro _; simp [Nat.mod_one]
  | succ n ih =>
    intro hn
    rw [show List.range (n + 1) = List.range n ++ [n] from List.range_succ n,
      List.foldl_append, ih (by omega), List.foldl_cons, List.foldl_nil]
    have hb : cld.getD n 0 = L / 2 ^ (8 * n) % 256 := hget n (by omega)
    rw [clen_inner (cld.getD n 0) (by rw [hb]; omega) (L % 2 ^ (8 * n)) (n * 8), hb,
      show n * 8 = 8 * n by omega, mergeByte, show 8 * n + 8 = 8 * (n + 1) by omega]

/-- Reveal's length assembly inverts headerBytes' little-endian encoding. -/
lemma clen_decode (k L : Nat) (hL : L < 2 ^ (8 * k)) : clenBits (leBytes L k) = L := by
  unfold clenBits
  rw [leBytes_length]
  rw [clen_outer (leBytes L k) L (fun i hi => leBytes_getD k L i (by rwa [leBytes_length] at hi)) k
    (by rw [leBytes_length])]
  exact Nat.mod_eq_of_lt hL

/- Header codec facts. -/

lemma hcoder_mem_facts : ∀ c < 4, ∀ v ∈ hcoderList c, hmapM v = c ∧ 1 ≤ v ∧ v < 256 := by decide

lemma bytecount_eq_classOf (L : Nat) (hL : L < 2 ^ 32) : bytecount L = classOf L + 1 := by
  unfold bytecount
  rw [bitcount_eq_log2]
  unfold classOf
  by_cases h0 : L = 0
  · subst h0; norm_num
  · simp only [if_neg h0]
    rcases Nat.lt_or_ge L (2 ^ 8) with h8 | h8
    · have hg : Nat.log2 L < 8 := (Nat.log2_lt h0).mpr h8
      rw [if_pos h8, show max 8 (Nat.log2 L + 1) = 8 by omega]
      norm_num
    · have hg8 : 8 ≤ Nat.log2 L := by
        by_contra hc
        push_neg at hc
        have := (Nat.log2_lt h0).mp hc
        omega
      rw [if_neg (show ¬L < 2 ^ 8 by omega), Nat.max_eq_right (by omega)]
      rcases Nat.lt_or_ge L (2 ^ 16) with h16 | h16
      · have hg : Nat.log2 L < 16 := (Nat.log2_lt h0).mpr h16
        rw [if_pos h16]
        set g := Nat.log2 L
        interval_cases g <;> norm_num
      · have hg16 : 16 ≤ Nat.log2 L := by
          by_contra hc
          push_neg at hc
          have := (Nat.log2_lt h0).mp hc
          omega
        rw [if_neg (show ¬L < 2 ^ 16 by omega)]
        rcases Nat.lt_or_ge L (2 ^ 24) with h24 | h24
        · have hg : Nat.log2 L < 24 := (Nat.log2_lt h0).mpr h24
          rw [if_pos h24]
          set g := Nat.log2 L
          interval_cases g <;> norm_num
        · have hg24 : 24 ≤ Nat.log2 L := by
            by_contra hc
            push_neg at hc
            have := (Nat.log2_lt h0).mp hc
            omega
          have hg32 : Nat.log2 L < 32 := (Nat.log2_lt h0).mpr hL
          rw [if_neg (show ¬L < 2 ^ 24 by omega)]
          set g := Nat.log2 L
          interval_cases g <;> norm_num

lemma lt_pow_bytecount (L : Nat) : L < 2 ^ (8 * bytecount L) := by
  by_cases h0 : L = 0
  · subst h0
    positivity
  · have h1 : L < 2 ^ (Nat.log2 L + 1) := Nat.lt_log2_self
  -- 8 * bytecount L ≥ bitcount L ≥ log2 L + 1
    have h2 : Nat.log2 L + 1 ≤ bitcount L := by
      rw [bitcount_eq_log2, if_neg h0]
      omega
    have h3 : bitcount L ≤ 8 * bytecount L := by
      unfold bytecount
      rcases Nat.eq_zero_or_pos (bitcount L % 8) with h | h
      · rw [if_neg (by omega)]
        omega
      · rw [if_pos (by omega)]
        omega
    exact lt_of_lt_of_le h1 (Nat.pow_le_pow_right (by norm_num) (by omega))

lemma bytecount_add_one_le (L : Nat) (h2 : 2 ≤ L) (h32 : L < 2 ^ 32) :
    bytecount L + 1 ≤ L := by
  rw [bytecount_eq_classOf L h32]
  unfold classOf
  split_ifs <;> omega

lemma headerBytesM_ok (dlen idx : Nat) (h32 : dlen < 2 ^ 32) :
    headerBytesM dlen idx = .ok (idx :: leBytes dlen (bytecount dlen)) := by
  unfold headerBytesM
  rw [if_neg (by omega)]
  split_ifs <;> first | rfl | omega

/- List prefix-fill lemmas for the incrementally assembled header and payload
buffers of Reveal. -/

/-- A buffer of the same length as l whose first q entries are those of l and
whose remaining entries are still the zero fill of make([]byte, n). -/
def partFill (l : List Nat) (q : Nat) : List Nat :=
  l.take q ++ List.replicate (l.length - q) 0

lemma partFill_length (l : List Nat) (q : Nat) (h : q ≤ l.length) :
    (partFill l q).length = l.length := by
  simp [partFill, List.length_take]
  omega

lemma partFill_zero (l : List Nat) : partFill l 0 = List.replicate l.length 0 := by
  simp [partFill]

lemma partFill_full (l : List Nat) : partFill l l.length = l := by
  simp [partFill]

lemma partFill_set (l : List Nat) (q : Nat) (hq : q < l.length) :
    (partFill l q).set q (l.getD q 0) = partFill l (q + 1) := by
  unfold partFill
  have hlt : (List.take q l).length = q := by
    simp [List.length_take]
    omega
  rw [List.set_append_right _ _ (by omega), hlt, Nat.sub_self,
    show l.length - q = (l.length - q - 1) + 1 by omega, List.replicate_succ,
    List.set_cons_zero, List.getD_eq_getElem l 0 hq]
  have htk : List.take (q + 1) l = List.take q l ++ [l[q]] := by
    rw [List.take_succ, List.getElem?_eq_getElem hq]
    rfl
  rw [htk, List.append_assoc, List.singleton_append,
    show l.length - (q + 1) = l.length - q - 1 by omega]

lemma foldl_range_inv {S : Type} (f : S → Nat → S) (σ : Nat → S) (n : Nat)
    (hstep : ∀ j < n, f (σ j) j = σ (j + 1)) :
    (List.range n).foldl f (σ 0) = σ n := by
  induction n with
  | zero => rfl
  | succ n ih =>
    rw [show List.range (n + 1) = List.range n ++ [n] from List.range_succ n,
      List.foldl_append, ih (fun j hj => hstep j (by omega)), List.foldl_cons,
      List.foldl_nil, hstep n (by omega)]

attribute [ext] RevealState

/-- Expected state of Reveal's loop after processing cells 0..j-1 of a
steganogram produced by Conceal with header hd, payload data and stride s.
Cells j < hd.length*4 rebuild header byte j/4 chunk by chunk (the buffer is
allocated when the first byte completes at cell 3); later cells rebuild
payload byte (j - hd.length*4)/s from its first four stride slots. -/
def rtState (hd data : List Nat) (s cap : Nat) (j : Nat) : RevealState :=
  if j < 4 then
    ⟨hd.getD 0 0 % 2 ^ (j % 4 * 2), none, none, 4, 0, false⟩
  else if j < hd.length * 4 then
    ⟨hd.getD (j / 4) 0 % 2 ^ (j % 4 * 2), some (partFill hd (j / 4)), none, 4, 0, false⟩
  else
    ⟨if (j - hd.length * 4) / s < data.length ∧ (j - hd.length * 4) % s < 4 then
        data.getD ((j - hd.length * 4) / s) 0 % 2 ^ ((j - hd.length * 4) % s * 2)
      else 0,
      some hd,
      some (partFill data (min data.length
        (if 4 ≤ (j - hd.length * 4) % s then (j - hd.length * 4) / s + 1
         else (j - hd.length * 4) / s))),
      (s : Int), data.length, false⟩


lemma tdiv_cast (a b : Nat) : (a : Int).tdiv (b : Int) = ((a / b : Nat) : Int) :=
  (Int.ofNat_tdiv a b).symm

lemma tmod_cast_toNat (a b : Nat) : ((a : Int).tmod (b : Int)).toNat = a % b := by
  rw [← Int.ofNat_tmod]
  exact Int.toNat_ofNat _

/-- Reduction of one reveal cell in the header phase (data buffer not yet
allocated, no panic). -/
lemma revealCellStep_header (cap abi v db : Nat) (hdata : Option (List Nat)) (stp : Int)
    (cl : Nat) (hcond : hdata.isNone ∨ abi < (hdata.getD []).length * 4) :
    revealCellStep cap ⟨db, hdata, none, stp, cl, false⟩ abi v =
      revealAccum cap abi ((abi / 4 : Nat) : Int) (abi % 4 * 2)
        ⟨db, hdata, none, stp, cl, false⟩ v := by
  simp only [revealCellStep]
  rw [if_neg (by simp), if_pos hcond]

/-- Reduction of one reveal cell in the content phase (positive stride, no
panic). -/
lemma revealCellStep_content (cap abi v db cl : Nat) (hd' dat : List Nat) (s' : Nat)
    (hcond : ¬abi < hd'.length * 4) (hs : 0 < s') :
    revealCellStep cap ⟨db, some hd', some dat, (s' : Int), cl, false⟩ abi v =
      revealAccum cap abi ((((abi - hd'.length * 4) / s' : Nat) : Int)
        : Int) ((abi - hd'.length * 4) % s' * 2)
        ⟨db, some hd', some dat, (s' : Int), cl, false⟩ v := by
  simp only [revealCellStep, Option.getD_some, Option.isNone_some]
  rw [if_neg (by simp), if_neg (by simpa using hcond),
    if_neg (by push_cast; omega : ¬((s' : Int) = 0)), tdiv_cast, tmod_cast_toNat]

/-- Transition of Reveal's loop across one header-region cell of a genuine
steganogram: the invariant state advances from j to j+1. -/
lemma rt_step_header (hd data : List Nat) (s cap : Nat) (j : Nat)
    (hhd2 : 2 ≤ hd.length) (hhdL : hd.length ≤ data.length)
    (hbh : ∀ i, hd.getD i 0 < 256)
    (hj : j < hd.length * 4)
    (hidx : hmapM (hd.getD 0 0) + 1 + 1 = hd.length)
    (hclen : clenBits (hd.drop 1) = data.length)
    (hstep : revealStep cap hd.length data.length = (s : Int))
    (w : Nat) (hw : w < 256) :
    revealCellStep cap (rtState hd data s cap j) j (concealCellVal hd data s j w) =
      rtState hd data s cap (j + 1) := by
  have hq : j / 4 < hd.length := by omega
  have hcell : concealCellVal hd data s j w =
      concealChunk w (hd.getD (j / 4) 0) (j % 4 * 2) := by
    simp only [concealCellVal, if_pos hj]
    rw [if_pos ⟨by omega, by omega⟩]
  rw [hcell]
  by_cases h4 : j < 4
  · -- header buffer not yet allocated
    have hq0 : j / 4 = 0 := by omega
    rw [show rtState hd data s cap j =
        ⟨hd.getD (j / 4) 0 % 2 ^ (j % 4 * 2), none, none, 4, 0, false⟩ by
      simp only [rtState, if_pos h4, hq0]]
    rw [revealCellStep_header cap j _ _ none 4 0 (Or.inl rfl)]
    by_cases hr : j % 4 < 3
    · rw [revealAccum_mid cap j ((j / 4 : Nat) : Int)
        ⟨hd.getD (j / 4) 0 % 2 ^ (j % 4 * 2), none, none, 4, 0, false⟩
        w (hd.getD (j / 4) 0) (j % 4) hr (hbh _) hw rfl (Or.inl rfl)]
      have hj1 : j + 1 < 4 := by omega
      simp only [rtState, if_pos hj1, RevealState.mk.injEq, and_true, true_and]
      rw [hq0, show (j + 1) % 4 * 2 = j % 4 * 2 + 2 by omega]
    · -- j = 3: the first header byte completes, the buffer is allocated
      have hj3 : j = 3 := by omega
      subst hj3
      rw [revealAccum_fin cap 3 ((3 / 4 : Nat) : Int)
        ⟨hd.getD (3 / 4) 0 % 2 ^ (3 % 4 * 2), none, none, 4, 0, false⟩
        w (hd.getD (3 / 4) 0) (3 % 4) rfl (hbh _) hw rfl (Or.inl rfl)]
      simp only [revealFinish, Option.isNone_none, Option.getD_none, List.length_nil,
        eq_self_iff_true, true_or, if_true, Nat.zero_mul]
      rw [if_pos (show ((3 / 4 : Nat) : Int) = 0 by norm_num)]
      rw [show ((3 / 4 : Nat) : Int).toNat = 0 by norm_num]
      rw [show (3 : Nat) / 4 = 0 from rfl, hidx]
      rw [show (List.replicate hd.length 0).set 0 (hd.getD 0 0) =
          (partFill hd 0).set 0 (hd.getD 0 0) by rw [partFill_zero],
        partFill_set hd 0 (by omega)]
      rw [if_neg (by
        rw [partFill_length hd 1 (by omega)]
        omega)]
      simp only [rtState, if_neg (show ¬(3 + 1 < 4) by omega),
        if_pos (show 3 + 1 < hd.length * 4 by omega), RevealState.mk.injEq, and_true,
        true_and]
      rw [show (3 + 1) % 4 * 2 = 0 by norm_num]
      simp [Nat.mod_one]
  · -- header buffer allocated: hdata = some (partFill hd (j/4))
    have hpfl : (partFill hd (j / 4)).length = hd.length :=
      partFill_length hd (j / 4) (by omega)
    rw [show rtState hd data s cap j =
        ⟨hd.getD (j / 4) 0 % 2 ^ (j % 4 * 2), some (partFill hd (j / 4)), none, 4, 0,
          false⟩ by
      simp only [rtState, if_neg h4, if_pos hj]]
    rw [revealCellStep_header cap j _ _ (some (partFill hd (j / 4))) 4 0
      (Or.inr (by rw [Option.getD_some, hpfl]; exact hj))]
    by_cases hr : j % 4 < 3
    · rw [revealAccum_mid cap j ((j / 4 : Nat) : Int)
        ⟨hd.getD (j / 4) 0 % 2 ^ (j % 4 * 2), some (partFill hd (j / 4)), none, 4, 0,
          false⟩
        w (hd.getD (j / 4) 0) (j % 4) hr (hbh _) hw rfl (Or.inl rfl)]
      simp only [rtState, if_neg (show ¬(j + 1 < 4) by omega),
        if_pos (show j + 1 < hd.length * 4 by omega), RevealState.mk.injEq, and_true,
        true_and]
      constructor
      · rw [show (j + 1) / 4 = j / 4 by omega,
          show (j + 1) % 4 * 2 = j % 4 * 2 + 2 by omega]
      · rw [show (j + 1) / 4 = j / 4 by omega]
    · -- a later header byte completes
      have hr3 : j % 4 = 3 := by omega
      rw [revealAccum_fin cap j ((j / 4 : Nat) : Int)
        ⟨hd.getD (j / 4) 0 % 2 ^ (j % 4 * 2), some (partFill hd (j / 4)), none, 4, 0,
          false⟩
        w (hd.getD (j / 4) 0) (j % 4) hr3 (hbh _) hw rfl (Or.inl rfl)]
      simp only [revealFinish, Option.isNone_some, Option.getD_some]
      rw [if_pos (Or.inr (show j < (partFill hd (j / 4)).length * 4 by rw [hpfl]; exact hj))]
      rw [if_neg (by push_cast; omega : ¬((j / 4 : Nat) : Int) = 0)]
      rw [show ((j / 4 : Nat) : Int).toNat = j / 4 from Int.toNat_ofNat _]
      rw [partFill_set hd (j / 4) hq]
      have hpfl1 : (partFill hd (j / 4 + 1)).length = hd.length :=
        partFill_length hd (j / 4 + 1) (by omega)
      by_cases hlast : j / 4 = hd.length - 1
      · -- the last header byte: decode clen, allocate data, recompute the stride
        rw [if_pos (by rw [hpfl1]; push_cast; omega)]
        rw [show j / 4 + 1 = hd.length by omega, partFill_full]
        rw [show hd.drop 1 = List.drop 1 hd from rfl, hclen]
        rw [show (0 : Nat) ||| data.length = data.length by simp, hstep]
        simp only [rtState, if_neg (show ¬(j + 1 < 4) by omega),
          if_neg (show ¬(j + 1 < hd.length * 4) by omega), RevealState.mk.injEq,
          and_true, true_and]
        have ha0 : j + 1 - hd.length * 4 = 0 := by omega
        rw [ha0, Nat.zero_div, Nat.zero_mod]
        refine ⟨?_, ?_⟩
        · rw [if_pos ⟨by omega, by omega⟩]
          simp [Nat.mod_one]
        · rw [if_neg (by omega), Nat.min_zero, partFill_zero]
      · rw [if_neg (by rw [hpfl1]; push_cast; omega)]
        simp only [rtState, if_neg (show ¬(j + 1 < 4) by omega),
          if_pos (show j + 1 < hd.length * 4 by omega), RevealState.mk.injEq, and_true,
          true_and]
        constructor
        · rw [show (j + 1) / 4 = j / 4 + 1 by omega, show (j + 1) % 4 * 2 = 0 by omega]
          simp [Nat.mod_one]
        · rw [show (j + 1) / 4 = j / 4 + 1 by omega]

/-- Transition of Reveal's loop across one content-region cell of a genuine
steganogram: written slots (first four of a stride), gap slots and tail cells
all preserve the invariant. -/
lemma rt_step_content (hd data : List Nat) (s cap : Nat) (j : Nat)
    (hhd2 : 2 ≤ hd.length)
    (hbd : ∀ i, data.getD i 0 < 256)
    (hs4 : 4 ≤ s)
    (hjge : hd.length * 4 ≤ j)
    (w : Nat) (hw : w < 256) :
    revealCellStep cap (rtState hd data s cap j) j (concealCellVal hd data s j w) =
      rtState hd data s cap (j + 1) := by
  have hs0 : 0 < s := by omega
  have ha1 : j + 1 - hd.length * 4 = (j - hd.length * 4) + 1 := by omega
  have hdm : s * ((j - hd.length * 4) / s) + (j - hd.length * 4) % s =
      j - hd.length * 4 := Nat.div_add_mod _ s
  have hmlt : (j - hd.length * 4) % s < s := Nat.mod_lt _ hs0
  by_cases hwrite : (j - hd.length * 4) % s < 4 ∧ (j - hd.length * 4) / s < data.length
  · -- a written slot: chunk (j-hl4)%s of payload byte (j-hl4)/s
    obtain ⟨ht4, hdlt⟩ := hwrite
    have hmin : min data.length
        (if 4 ≤ (j - hd.length * 4) % s then (j - hd.length * 4) / s + 1
         else (j - hd.length * 4) / s) = (j - hd.length * 4) / s := by
      rw [if_neg (by omega)]
      exact Nat.min_eq_right (by omega)
    have hst : rtState hd data s cap j =
        ⟨data.getD ((j - hd.length * 4) / s) 0 % 2 ^ ((j - hd.length * 4) % s * 2),
          some hd, some (partFill data ((j - hd.length * 4) / s)), (s : Int),
          data.length, false⟩ := by
      simp only [rtState, if_neg (show ¬(j < 4) by omega),
        if_neg (show ¬(j < hd.length * 4) by omega), hmin]
      rw [if_pos ⟨hdlt, ht4⟩]
    have hcell : concealCellVal hd data s j w =
        concealChunk w (data.getD ((j - hd.length * 4) / s) 0)
          ((j - hd.length * 4) % s * 2) := by
      simp only [concealCellVal, if_neg (show ¬(j < hd.length * 4) by omega)]
      rw [if_pos ⟨by omega, hdlt⟩]
    rw [hst, hcell,
      revealCellStep_content cap j _ _ data.length hd
        (partFill data ((j - hd.length * 4) / s)) s (by omega) hs0]
    have hguard : (some (partFill data ((j - hd.length * 4) / s))).isNone = true ∨
        (((j - hd.length * 4) / s : Nat) : Int) <
          (((some (partFill data ((j - hd.length * 4) / s))).getD []).length : Int) := by
      right
      rw [Option.getD_some, partFill_length data _ (by omega)]
      push_cast
      omega
    by_cases hr : (j - hd.length * 4) % s < 3
    · rw [revealAccum_mid cap j _ _ w
        (data.getD ((j - hd.length * 4) / s) 0) ((j - hd.length * 4) % s) hr (hbd _) hw
        rfl hguard]
      have hd1 : (j + 1 - hd.length * 4) / s = (j - hd.length * 4) / s := by
        rw [ha1, show (j - hd.length * 4) + 1 =
          s * ((j - hd.length * 4) / s) + ((j - hd.length * 4) % s + 1) by omega,
          Nat.mul_add_div hs0,
          Nat.div_eq_of_lt (show (j - hd.length * 4) % s + 1 < s by omega),
          Nat.add_zero]
      have hm1 : (j + 1 - hd.length * 4) % s = (j - hd.length * 4) % s + 1 := by
        rw [ha1, show (j - hd.length * 4) + 1 =
          s * ((j - hd.length * 4) / s) + ((j - hd.length * 4) % s + 1) by omega,
          Nat.mul_add_mod,
          Nat.mod_eq_of_lt (show (j - hd.length * 4) % s + 1 < s by omega)]
      simp only [rtState, if_neg (show ¬(j + 1 < 4) by omega),
        if_neg (show ¬(j + 1 < hd.length * 4) by omega), hd1, hm1]
      refine RevealState.ext ?_ rfl ?_ rfl rfl rfl
      · dsimp only
        rw [if_pos ⟨hdlt, by omega⟩, show ((j - hd.length * 4) % s + 1) * 2 =
          (j - hd.length * 4) % s * 2 + 2 by omega]
      · dsimp only
        rw [if_neg (by omega), Nat.min_eq_right (by omega)]
    · -- chunk 3 completes payload byte (j-hl4)/s
      have hr3 : (j - hd.length * 4) % s = 3 := by omega
      rw [revealAccum_fin cap j _ _ w
        (data.getD ((j - hd.length * 4) / s) 0) ((j - hd.length * 4) % s) hr3 (hbd _) hw
        rfl hguard]
      simp only [revealFinish, Option.isNone_some, Option.getD_some]
      rw [if_neg (by
        simp only [Bool.false_eq_true, false_or]
        omega)]
      rw [if_neg (by
        rw [partFill_length data _ (by omega)]
        push_cast
        omega)]
      rw [show ((((j - hd.length * 4) / s : Nat)) : Int).toNat = (j - hd.length * 4) / s
        from Int.toNat_ofNat _]
      rw [partFill_set data _ hdlt]
      simp only [rtState, if_neg (show ¬(j + 1 < 4) by omega),
        if_neg (show ¬(j + 1 < hd.length * 4) by omega)]
      rcases Nat.lt_or_ge 4 s with hs5 | hs5
      · -- stride greater than 4: the next slot is a gap slot of the same byte
        have hd1 : (j + 1 - hd.length * 4) / s = (j - hd.length * 4) / s := by
          rw [ha1, show (j - hd.length * 4) + 1 =
            s * ((j - hd.length * 4) / s) + ((j - hd.length * 4) % s + 1) by omega,
            Nat.mul_add_div hs0,
            Nat.div_eq_of_lt (show (j - hd.length * 4) % s + 1 < s by omega),
            Nat.add_zero]
        have hm1 : (j + 1 - hd.length * 4) % s = 4 := by
          rw [ha1, show (j - hd.length * 4) + 1 =
            s * ((j - hd.length * 4) / s) + ((j - hd.length * 4) % s + 1) by omega,
            Nat.mul_add_mod,
            Nat.mod_eq_of_lt (show (j - hd.length * 4) % s + 1 < s by omega), hr3]
        rw [hd1, hm1]
        refine RevealState.ext ?_ rfl ?_ rfl rfl rfl
        · dsimp only
          rw [if_neg (by omega)]
        · dsimp only
          rw [if_pos (by omega), Nat.min_eq_right (by omega)]
      · -- stride exactly 4: the next cell already belongs to the next byte
        have hd1 : (j + 1 - hd.length * 4) / s = (j - hd.length * 4) / s + 1 := by
          rw [ha1, show (j - hd.length * 4) + 1 =
            s * ((j - hd.length * 4) / s) + s by omega,
            ← Nat.mul_succ, Nat.mul_div_cancel_left _ hs0]
        have hm1 : (j + 1 - hd.length * 4) % s = 0 := by
          rw [ha1, show (j - hd.length * 4) + 1 =
            s * ((j - hd.length * 4) / s) + s by omega,
            ← Nat.mul_succ, Nat.mul_mod_right]
        rw [hd1, hm1]
        refine RevealState.ext ?_ rfl ?_ rfl rfl rfl
        · dsimp only
          rw [show (0 : Nat) * 2 = 0 by omega, pow_zero]
          by_cases hnext : (j - hd.length * 4) / s + 1 < data.length
          · rw [if_pos ⟨hnext, by omega⟩]
            simp [Nat.mod_one]
          · rw [if_neg (by omega)]
        · dsimp only
          rw [if_neg (by omega), Nat.min_eq_right (by omega)]
  · -- a gap slot or a tail cell: the state is unchanged
    have hst : rtState hd data s cap j =
        ⟨if (j - hd.length * 4) / s < data.length ∧ (j - hd.length * 4) % s < 4 then
            data.getD ((j - hd.length * 4) / s) 0 % 2 ^ ((j - hd.length * 4) % s * 2)
          else 0,
          some hd,
          some (partFill data (min data.length
            (if 4 ≤ (j - hd.length * 4) % s then (j - hd.length * 4) / s + 1
             else (j - hd.length * 4) / s))), (s : Int), data.length, false⟩ := by
      simp only [rtState, if_neg (show ¬(j < 4) by omega),
        if_neg (show ¬(j < hd.length * 4) by omega)]
    rw [hst, revealCellStep_content cap j _ _ data.length hd _ s (by omega) hs0,
      revealAccum_skip cap j _ _ _ _ (by
        intro hcon
        obtain ⟨h8, hgd⟩ := hcon
        rcases hgd with hgd | hgd
        · simp at hgd
        · rw [Option.getD_some,
            partFill_length data _ (Nat.min_le_left _ _)] at hgd
          have : (j - hd.length * 4) / s < data.length := by exact_mod_cast hgd
          omega)]
    have hdmono : (j - hd.length * 4) / s ≤ (j + 1 - hd.length * 4) / s := by
      rw [ha1]
      exact Nat.div_le_div_right (by omega)
    simp only [rtState, if_neg (show ¬(j + 1 < 4) by omega),
      if_neg (show ¬(j + 1 < hd.length * 4) by omega)]
    by_cases hcase : (j - hd.length * 4) % s < 4
    · -- tail cell: every payload byte is already rebuilt
      have hLd : data.length ≤ (j - hd.length * 4) / s := by omega
      refine RevealState.ext ?_ rfl ?_ rfl rfl rfl
      · dsimp only
        rw [if_neg (by omega), if_neg (by omega)]
      · dsimp only
        rw [if_neg (by omega), Nat.min_eq_left hLd, Nat.min_eq_left (by
          rcases Nat.lt_or_ge ((j + 1 - hd.length * 4) % s) 4 with h | h
          · rw [if_neg (by omega)]
            omega
          · rw [if_pos h]
            omega)]
    · -- gap slot of the current byte
      have ht4 : 4 ≤ (j - hd.length * 4) % s := by omega
      rcases Nat.lt_or_ge ((j - hd.length * 4) % s + 1) s with hlt | hge
      · have hd1 : (j + 1 - hd.length * 4) / s = (j - hd.length * 4) / s := by
          rw [ha1, show (j - hd.length * 4) + 1 =
            s * ((j - hd.length * 4) / s) + ((j - hd.length * 4) % s + 1) by omega,
            Nat.mul_add_div hs0, Nat.div_eq_of_lt hlt, Nat.add_zero]
        have hm1 : (j + 1 - hd.length * 4) % s = (j - hd.length * 4) % s + 1 := by
          rw [ha1, show (j - hd.length * 4) + 1 =
            s * ((j - hd.length * 4) / s) + ((j - hd.length * 4) % s + 1) by omega,
            Nat.mul_add_mod, Nat.mod_eq_of_lt hlt]
        rw [hd1, hm1]
        refine RevealState.ext ?_ rfl ?_ rfl rfl rfl
        · dsimp only
          rw [if_neg (by omega), if_neg (by omega)]
        · dsimp only
          rw [if_pos ht4, if_pos (by omega)]
      · -- the gap ends exactly at the next byte boundary
        have hm0 : (j - hd.length * 4) % s + 1 = s := by omega
        have hd1 : (j + 1 - hd.length * 4) / s = (j - hd.length * 4) / s + 1 := by
          rw [ha1, show (j - hd.length * 4) + 1 =
            s * ((j - hd.length * 4) / s) + s by omega,
            ← Nat.mul_succ, Nat.mul_div_cancel_left _ hs0]
        have hm1 : (j + 1 - hd.length * 4) % s = 0 := by
          rw [ha1, show (j - hd.length * 4) + 1 =
            s * ((j - hd.length * 4) / s) + s by omega,
            ← Nat.mul_succ, Nat.mul_mod_right]
        rw [hd1, hm1]
        refine RevealState.ext ?_ rfl ?_ rfl rfl rfl
        · dsimp only
          rw [if_neg (by omega)]
          by_cases hnext : (j - hd.length * 4) / s + 1 < data.length
          · rw [if_pos ⟨hnext, by omega⟩, show (0 : Nat) * 2 = 0 by omega, pow_zero]
            simp [Nat.mod_one]
          · rw [if_neg (by omega)]
        · dsimp only
          rw [if_pos ht4, if_neg (by omega)]

lemma getD_lt_256 (l : List Nat) (hb : ∀ b ∈ l, b < 256) (i : Nat) : l.getD i 0 < 256 := by
  rcases Nat.lt_or_ge i l.length with h | h
  · rw [List.getD_eq_getElem l 0 h]
    exact hb _ (List.getElem_mem h)
  · rw [List.getD_eq_default l 0 h]
    omega

/-- Running Reveal's cell loop over all N cells of a genuine steganogram
reaches the invariant state at N. -/
lemma rt_run (hd data : List Nat) (s cap N : Nat) (V W : Nat → Nat)
    (hhd2 : 2 ≤ hd.length) (hhdL : hd.length ≤ data.length)
    (hbh : ∀ i, hd.getD i 0 < 256) (hbd : ∀ i, data.getD i 0 < 256)
    (hidx : hmapM (hd.getD 0 0) + 1 + 1 = hd.length)
    (hclen : clenBits (hd.drop 1) = data.length)
    (hstep : revealStep cap hd.length data.length = (s : Int))
    (hs4 : 4 ≤ s)
    (hW : ∀ j < N, W j < 256)
    (hV : ∀ j < N, V j = concealCellVal hd data s j (W j)) :
    (List.range N).foldl (fun st abi => revealCellStep cap st abi (V abi))
      ⟨0, none, none, 4, 0, false⟩ = rtState hd data s cap N := by
  have h0 : rtState hd data s cap 0 = ⟨0, none, none, 4, 0, false⟩ := by
    simp only [rtState, if_pos (show (0 : Nat) < 4 by norm_num)]
    norm_num [Nat.mod_one]
  rw [← h0]
  refine foldl_range_inv _ (rtState hd data s cap) N (fun j hj => ?_)
  rw [hV j hj]
  rcases Nat.lt_or_ge j (hd.length * 4) with hcase | hcase
  · exact rt_step_header hd data s cap j hhd2 hhdL hbh hcase hidx hclen hstep (W j)
      (hW j hj)
  · exact rt_step_content hd data s cap j hhd2 hbd hs4 hcase (W j) (hW j hj)

/-- When the carrier holds all content cells, the invariant state at N carries
the complete payload. -/
lemma rtState_final (hd data : List Nat) (s cap N : Nat)
    (hs4 : 4 ≤ s) (hL1 : 1 ≤ data.length)
    (hfit : hd.length * 4 + (data.length - 1) * s + 4 ≤ N) :
    rtState hd data s cap N = ⟨0, some hd, some data, (s : Int), data.length, false⟩ := by
  have hs0 : 0 < s := by omega
  have hdge : data.length - 1 ≤ (N - hd.length * 4) / s := by
    have h1 : (data.length - 1) * s + 4 ≤ N - hd.length * 4 := by omega
    have h2 : ((data.length - 1) * s + 4) / s ≤ (N - hd.length * 4) / s :=
      Nat.div_le_div_right (by omega)
    rw [mul_comm, Nat.mul_add_div hs0] at h2
    have h3 := Nat.le_add_right (data.length - 1) (4 / s)
    omega
  have hdm : s * ((N - hd.length * 4) / s) + (N - hd.length * 4) % s =
      N - hd.length * 4 := Nat.div_add_mod _ s
  simp only [rtState, if_neg (show ¬(N < 4) by omega),
    if_neg (show ¬(N < hd.length * 4) by omega)]
  refine RevealState.ext ?_ rfl ?_ rfl rfl rfl
  · dsimp only
    rcases Nat.lt_or_ge ((N - hd.length * 4) / s) data.length with hdL | hdL
    · have hdeq : (N - hd.length * 4) / s = data.length - 1 := by omega
      have hsd : s * ((N - hd.length * 4) / s) = (data.length - 1) * s := by
        rw [hdeq, mul_comm]
      have ht : 4 ≤ (N - hd.length * 4) % s := by omega
      rw [if_neg (by omega)]
    · rw [if_neg (by omega)]
  · dsimp only
    rcases Nat.lt_or_ge ((N - hd.length * 4) / s) data.length with hdL | hdL
    · have hdeq : (N - hd.length * 4) / s = data.length - 1 := by omega
      have hsd : s * ((N - hd.length * 4) / s) = (data.length - 1) * s := by
        rw [hdeq, mul_comm]
      have ht : 4 ≤ (N - hd.length * 4) % s := by omega
      rw [if_pos ht, hdeq, show data.length - 1 + 1 = data.length by omega,
        Nat.min_self, partFill_full]
    · have hm : min data.length
          (if 4 ≤ (N - hd.length * 4) % s then (N - hd.length * 4) / s + 1
           else (N - hd.length * 4) / s) = data.length := by
        rcases Nat.lt_or_ge ((N - hd.length * 4) % s) 4 with h | h
        · rw [if_neg (by omega)]
          omega
        · rw [if_pos h]
          omega
      rw [hm, partFill_full]

lemma concealCellVal_lt (hd data : List Nat) (s abi v : Nat) (hv : v < 256) :
    concealCellVal hd data s abi v < 256 := by
  simp only [concealCellVal]
  split_ifs with h1 h2 h3
  · exact chunk_lt _ _ _ hv
  · exact hv
  · exact chunk_lt _ _ _ hv
  · exact hv

lemma rgba16_255 : ∀ v < 256, n16 (rgba16 v 255) = v := by decide

/-- A successful Conceal is the header-check plus the per-pixel map. -/
lemma concealM_ok (data : List Nat) (img : Image) (idx : Nat)
    (h32 : data.length < 2 ^ 32)
    (hcap : ¬((data.length : Int) > (CalculateCapacity img.width img.height 3 2 : Int) -
      (idx :: leBytes data.length (bytecount data.length)).length)) :
    concealM data img idx = .ok ⟨img.width, img.height,
      img.pixels.enum.map (fun pe =>
        concealPixel (idx :: leBytes data.length (bytecount data.length)) data
          (concealStep (CalculateCapacity img.width img.height 3 2)
            (idx :: leBytes data.length (bytecount data.length)).length data.length)
          pe.1 pe.2)⟩ := by
  unfold concealM
  rw [headerBytesM_ok data.length idx h32]
  simp only
  rw [if_neg hcap]

/-- Each cell of the re-decoded steganogram carries exactly the value Conceal
wrote over the normalized source cell, provided the carrier is 16-bit valid and
fully opaque. -/
lemma out_cell (data : List Nat) (img : Image) (hd : List Nat) (s : Nat)
    (hwf : img.pixels.length = img.width * img.height)
    (hch : ∀ p ∈ img.pixels, p.r < 65536 ∧ p.g < 65536 ∧ p.b < 65536)
    (ha : ∀ p ∈ img.pixels, n16 p.a = 255) :
    ∀ abi < img.width * img.height * 3,
      cellValN (premultView ⟨img.width, img.height,
        img.pixels.enum.map (fun pe => concealPixel hd data s pe.1 pe.2)⟩) abi =
        concealCellVal hd data s abi (cellValN img abi) ∧ cellValN img abi < 256 := by
  intro abi habi
  have hpi : abi / 3 < img.pixels.length := by
    rw [hwf]
    omega
  have hmem : img.pixels[abi / 3] ∈ img.pixels := List.getElem_mem hpi
  have hlen1 : (img.pixels.enum.map (fun pe =>
      concealPixel hd data s pe.1 pe.2)).length = img.pixels.length := by
    rw [List.length_map, List.enum_length]
  have hpix : (img.pixels.enum.map (fun pe =>
      concealPixel hd data s pe.1 pe.2)).getD (abi / 3) ⟨0, 0, 0, 0⟩ =
      concealPixel hd data s (abi / 3) img.pixels[abi / 3] := by
    rw [List.getD_eq_getElem _ _ (by rw [hlen1]; exact hpi)]
    rw [List.getElem_map]
    rw [List.getElem_enum]
  have hsrc : cellValN img abi =
      (if abi % 3 = 0 then n16 img.pixels[abi / 3].r
       else if abi % 3 = 1 then n16 img.pixels[abi / 3].g
       else n16 img.pixels[abi / 3].b) := by
    simp only [cellValN]
    rw [List.getD_eq_getElem _ _ hpi]
  have hsrclt : cellValN img abi < 256 := by
    rw [hsrc]
    have := hch _ hmem
    split_ifs <;> · simp only [n16]; omega
  refine ⟨?_, hsrclt⟩
  have hpq : (premultView ⟨img.width, img.height,
      img.pixels.enum.map (fun pe => concealPixel hd data s pe.1 pe.2)⟩).pixels.getD
      (abi / 3) ⟨0, 0, 0, 0⟩ =
      { r := rgba16 (concealCellVal hd data s (abi / 3 * 3 + 0) (n16 img.pixels[abi / 3].r)) 255
        g := rgba16 (concealCellVal hd data s (abi / 3 * 3 + 1) (n16 img.pixels[abi / 3].g)) 255
        b := rgba16 (concealCellVal hd data s (abi / 3 * 3 + 2) (n16 img.pixels[abi / 3].b)) 255
        a := n16 img.pixels[abi / 3].a ||| (n16 img.pixels[abi / 3].a <<< 8) } := by
    simp only [premultView]
    rw [List.getD_eq_getElem _ _ (by
      rw [List.length_map, hlen1]
      exact hpi)]
    rw [List.getElem_map]
    have := hpix
    rw [List.getD_eq_getElem _ _ (by rw [hlen1]; exact hpi)] at this
    rw [this]
    simp only [concealPixel]
    rw [ha _ hmem]
  have hch3 : ∀ v, v < 65536 → n16 v < 256 := by
    intro v hv
    simp only [n16]
    omega
  obtain ⟨hr, hg, hb⟩ := hch _ hmem
  have hlhs : cellValN (premultView ⟨img.width, img.height,
      img.pixels.enum.map (fun pe => concealPixel hd data s pe.1 pe.2)⟩) abi =
      (if abi % 3 = 0 then
        n16 (rgba16 (concealCellVal hd data s (abi / 3 * 3 + 0)
          (n16 img.pixels[abi / 3].r)) 255)
       else if abi % 3 = 1 then
        n16 (rgba16 (concealCellVal hd data s (abi / 3 * 3 + 1)
          (n16 img.pixels[abi / 3].g)) 255)
       else
        n16 (rgba16 (concealCellVal hd data s (abi / 3 * 3 + 2)
          (n16 img.pixels[abi / 3].b)) 255)) := by
    simp only [cellValN]
    rw [hpq]
  rcases Nat.lt_or_ge (abi % 3) 1 with h3 | h3
  · have h0 : abi % 3 = 0 := by omega
    rw [hlhs, if_pos h0, rgba16_255 _ (concealCellVal_lt hd data s _ _ (hch3 _ hr)),
      hsrc, if_pos h0, show abi / 3 * 3 + 0 = abi by omega]
  · rcases Nat.lt_or_ge (abi % 3) 2 with h3b | h3b
    · have h1 : abi % 3 = 1 := by omega
      rw [hlhs, if_neg (by omega), if_pos h1,
        rgba16_255 _ (concealCellVal_lt hd data s _ _ (hch3 _ hg)),
        hsrc, if_neg (by omega), if_pos h1, show abi / 3 * 3 + 1 = abi by omega]
    · have h2 : abi % 3 = 2 := by omega
      rw [hlhs, if_neg (by omega), if_neg (by omega),
        rgba16_255 _ (concealCellVal_lt hd data s _ _ (hch3 _ hb)),
        hsrc, if_neg (by omega), if_neg (by omega), show abi / 3 * 3 + 2 = abi by omega]

/-- Claim C1 (amended): for every payload of length at least 2 (and below 2^32,
the header codec's data model), every fully opaque carrier grid of valid 16-bit
premultiplied pixels with W,H ≥ 2, and every index byte the encoder's random
source may choose from the selected class, if len(P) ≤ capacity − header_len
then Reveal recovers from the steganogram produced by Conceal (re-decoded
through the PNG/NRGBA boundary) exactly the payload. The original claim's
length-1 case is excluded: Conceal's write guard `dbi < len(data)` skips the
second header byte there (see the counterexample). -/
theorem claim_C1_roundtrip_amended
    (data : List Nat) (img : Image) (idx : Nat)
    (hwf : img.pixels.length = img.width * img.height)
    (hch : ∀ p ∈ img.pixels, p.r < 65536 ∧ p.g < 65536 ∧ p.b < 65536)
    (ha : ∀ p ∈ img.pixels, n16 p.a = 255)
    (hbytes : ∀ b ∈ data, b < 256)
    (hW2 : 2 ≤ img.width) (hH2 : 2 ≤ img.height)
    (hL2 : 2 ≤ data.length) (hL32 : data.length < 2 ^ 32)
    (hidx : idx ∈ hcoderList (classOf data.length))
    (hcap : (data.length : Int) ≤ (CalculateCapacity img.width img.height 3 2 : Int) -
      (bytecount data.length + 1)) :
    ∃ out, concealM data img idx = .ok out ∧ revealM (premultView out) = some data := by
  have hcls4 : classOf data.length < 4 := by
    unfold classOf
    split_ifs <;> omega
  obtain ⟨hmapidx, hidx1, hidx256⟩ := hcoder_mem_facts (classOf data.length) hcls4 idx hidx
  have hk := bytecount_eq_classOf data.length hL32
  have hdlen : (idx :: leBytes data.length (bytecount data.length)).length =
      bytecount data.length + 1 := by
    simp [leBytes_length]
  have hhd2 : 2 ≤ (idx :: leBytes data.length (bytecount data.length)).length := by
    omega
  have hhdL : (idx :: leBytes data.length (bytecount data.length)).length ≤
      data.length := by
    rw [hdlen]
    exact bytecount_add_one_le _ hL2 hL32
  have hbh : ∀ i, (idx :: leBytes data.length (bytecount data.length)).getD i 0 < 256 := by
    refine getD_lt_256 _ (fun b hb => ?_)
    rcases List.mem_cons.mp hb with hb | hb
    · omega
    · exact leBytes_mem_lt _ _ b hb
  have hbd : ∀ i, data.getD i 0 < 256 := getD_lt_256 data hbytes
  have hidx2 : hmapM ((idx :: leBytes data.length (bytecount data.length)).getD 0 0) +
      1 + 1 = (idx :: leBytes data.length (bytecount data.length)).length := by
    rw [show (idx :: leBytes data.length (bytecount data.length)).getD 0 0 = idx
      from rfl, hmapidx, hdlen]
    omega
  have hclen : clenBits ((idx :: leBytes data.length (bytecount data.length)).drop 1) =
      data.length := by
    rw [show (idx :: leBytes data.length (bytecount data.length)).drop 1 =
      leBytes data.length (bytecount data.length) from rfl]
    exact clen_decode _ _ (lt_pow_bytecount data.length)
  have hL0 : 0 < data.length := by omega
  have hcapN : bytecount data.length + 1 + data.length ≤
      CalculateCapacity img.width img.height 3 2 := by
    omega
  have hs4 : 4 ≤ concealStep (CalculateCapacity img.width img.height 3 2)
      (bytecount data.length + 1) data.length := by
    unfold concealStep
    refine (Nat.le_div_iff_mul_le hL0).mpr ?_
    have h1 : data.length ≤ CalculateCapacity img.width img.height 3 2 -
        (bytecount data.length + 1) := by omega
    omega
  have hstep : revealStep (CalculateCapacity img.width img.height 3 2)
      (bytecount data.length + 1) data.length =
      ((concealStep (CalculateCapacity img.width img.height 3 2)
        (bytecount data.length + 1) data.length : Nat) : Int) := by
    unfold revealStep concealStep
    rw [if_neg (by omega)]
    rw [show ((CalculateCapacity img.width img.height 3 2 : Int) -
      ((bytecount data.length + 1 : Nat) : Int)) =
      ((CalculateCapacity img.width img.height 3 2 - (bytecount data.length + 1) : Nat) :
        Int) by omega]
    rw [show (((CalculateCapacity img.width img.height 3 2 -
      (bytecount data.length + 1) : Nat) : Int)) * 4 =
      (((CalculateCapacity img.width img.height 3 2 -
        (bytecount data.length + 1)) * 4 : Nat) : Int) by push_cast; ring]
    rw [← Int.ofNat_tdiv]
  have hsL : concealStep (CalculateCapacity img.width img.height 3 2)
      (bytecount data.length + 1) data.length * data.length ≤
      (CalculateCapacity img.width img.height 3 2 - (bytecount data.length + 1)) * 4 :=
    Nat.div_mul_le_self _ _
  have hfit : (idx :: leBytes data.length (bytecount data.length)).length * 4 +
      (data.length - 1) * concealStep (CalculateCapacity img.width img.height 3 2)
        (bytecount data.length + 1) data.length + 4 ≤
      img.width * img.height * 3 := by
    have hLs_eq : data.length * concealStep (CalculateCapacity img.width img.height 3 2)
        (bytecount data.length + 1) data.length =
        (data.length - 1) * concealStep (CalculateCapacity img.width img.height 3 2)
          (bytecount data.length + 1) data.length +
        concealStep (CalculateCapacity img.width img.height 3 2)
          (bytecount data.length + 1) data.length := by
      have h := Nat.add_mul (data.length - 1) 1
        (concealStep (CalculateCapacity img.width img.height 3 2)
          (bytecount data.length + 1) data.length)
      rw [Nat.sub_add_cancel hL0, one_mul] at h
      omega
    have hcom : data.length * concealStep (CalculateCapacity img.width img.height 3 2)
        (bytecount data.length + 1) data.length =
        concealStep (CalculateCapacity img.width img.height 3 2)
          (bytecount data.length + 1) data.length * data.length :=
      Nat.mul_comm _ _
    have hcap4 : 4 * CalculateCapacity img.width img.height 3 2 ≤
        img.width * img.height * 3 := by
      unfold CalculateCapacity
      have h1 : img.width * img.height * 3 * 2 / 8 = img.width * img.height * 3 / 4 := by
        rw [show (8 : Nat) = 4 * 2 from rfl, Nat.mul_div_mul_right _ _ (by norm_num)]
      have h2 := Nat.div_mul_le_self (img.width * img.height * 3) 4
      omega
    rw [hdlen]
    omega
  refine ⟨_, concealM_ok data img idx hL32 (by rw [hdlen]; omega), ?_⟩
  have hcells := out_cell data img (idx :: leBytes data.length (bytecount data.length))
    (concealStep (CalculateCapacity img.width img.height 3 2)
      (bytecount data.length + 1) data.length) hwf hch ha
  rw [hdlen]
  set pv := premultView ⟨img.width, img.height,
    img.pixels.enum.map (fun pe =>
      concealPixel (idx :: leBytes data.length (bytecount data.length)) data
        (concealStep (CalculateCapacity img.width img.height 3 2)
          (bytecount data.length + 1) data.length) pe.1 pe.2)⟩ with hpv
  have hpvw : pv.width = img.width := by rw [hpv]; rfl
  have hpvh : pv.height = img.height := by rw [hpv]; rfl
  simp only [revealM]
  rw [hpvw, hpvh]
  rw [rt_run (idx :: leBytes data.length (bytecount data.length)) data
    (concealStep (CalculateCapacity img.width img.height 3 2)
      (bytecount data.length + 1) data.length)
    (CalculateCapacity img.width img.height 3 2)
    (img.width * img.height * 3) (cellValN pv) (cellValN img) hhd2 hhdL hbh hbd hidx2
    hclen (by rw [hdlen]; exact hstep) hs4
    (fun j hj => (hcells j hj).2)
    (fun j hj => by rw [hpv]; exact (hcells j hj).1)]
  rw [rtState_final _ _ _ _ _ hs4 (by omega) (by rw [hdlen] at hfit; omega)]
  simp

/-- A fully white, fully opaque 2x2 carrier, as the 16-bit premultiplied values
Color.RGBA() yields. -/
def imgW2 : Image := ⟨2, 2, List.replicate 4 ⟨65535, 65535, 65535, 65535⟩⟩

/-- A fully black, fully opaque 2x2 carrier. -/
def imgB2 : Image := ⟨2, 2, List.replicate 4 ⟨0, 0, 0, 65535⟩⟩

/-- A fully black, fully opaque 2x3 carrier. -/
def imgB23 : Image := ⟨2, 3, List.replicate 6 ⟨0, 0, 0, 65535⟩⟩

/-- A 1x1 carrier (capacity 0). -/
def img11 : Image := ⟨1, 1, [⟨0, 0, 0, 65535⟩]⟩

/-- Claim C1 (counterexample): the round trip fails as originally stated. The
1-byte payload [42] on the white opaque 2x2 carrier satisfies every premise of
the claim (len ≤ capacity − header_len, W,H ≥ 2, admissible index byte 1), yet
Conceal succeeds and Reveal does not return the payload: Conceal never embeds
the second header byte (its write guard tests len(data)), Reveal reads the
carrier's white bits as content length 255, computes stride 0 and crashes on a
division by zero (modelled as none) instead of producing [42]. -/
theorem claim_C1_counterexample :
    (([42] : List Nat).length : Int) ≤
      (CalculateCapacity imgW2.width imgW2.height 3 2 : Int) -
        (bytecount ([42] : List Nat).length + 1) ∧
    1 ∈ hcoderList (classOf ([42] : List Nat).length) ∧
    (concealM [42] imgW2 1).toOption.map (fun o => revealM (premultView o)) =
      some none := by decide

/-- Witness for the amended claim C1 at a concrete input: payload [65, 66] on
the black opaque 2x3 carrier with index byte 1. -/
theorem claim_C1_witness :
    ∃ out, concealM [65, 66] imgB23 1 = .ok out ∧
      revealM (premultView out) = some [65, 66] :=
  claim_C1_roundtrip_amended [65, 66] imgB23 1 (by decide) (by decide) (by decide)
    (by decide) (by decide) (by decide) (by decide) (by decide) (by decide) (by decide)

/-- Claim C2 (code bug): the minimum-carrier scenario fails on the code. On the
black opaque 2x2 carrier, Conceal of the single byte 65 succeeds without a
capacity error (the outer some), but Reveal returns the empty payload instead
of [65]: the length header byte was never embedded, so Reveal decodes content
length 0 from the carrier's black bits. -/
theorem claim_C2_min_carrier_bug :
    (([65] : List Nat).length : Int) ≤
      (CalculateCapacity imgB2.width imgB2.height 3 2 : Int) -
        (bytecount ([65] : List Nat).length + 1) ∧
    1 ∈ hcoderList (classOf ([65] : List Nat).length) ∧
    (concealM [65] imgB2 1).toOption.map (fun o => revealM (premultView o)) =
      some (some []) := by decide

/-- Claim C4 (code bug): a malformed steganogram whose first decoded header
byte is 0 does not make Reveal fail. On the all-black 2x2 image the index byte
decodes to 0, the absent hmap key yields class 0, the content length decodes to
0, and Reveal returns successfully with an empty payload instead of an
"unrecognized index byte" error — the source has no such error path at all. -/
theorem claim_C4_no_invalid_steganogram_error : revealM imgB2 = some [] := by decide

/-- Claim C8 (code bug): headerBytes does not fail for the length 2^32, which
exceeds 2^32 − 1: the guard is dlen > 2^32, and no class switch case matches,
so the function returns the bare five little-endian length bytes with no index
byte prepended (first byte 0) and no error. -/
theorem claim_C8_max_boundary_bug : headerBytesM (2 ^ 32) 1 = .ok [0, 0, 0, 0, 1] := by
  decide

/-- Claim C3: Conceal fails with CapacityOverflow exactly when the payload
exceeds capacity minus the length of the header headerBytes produced for it
(Go int arithmetic, hence the comparison in ℤ); the Except structure of the
model shows no image is produced on that failure. -/
theorem claim_C3_capacity_iff (data : List Nat) (img : Image) (idx : Nat)
    (h : List Nat) (hh : headerBytesM data.length idx = .ok h) :
    concealM data img idx = .error .capacityOverflow ↔
      (data.length : Int) >
        (CalculateCapacity img.width img.height 3 2 : Int) - h.length := by
  unfold concealM
  rw [hh]
  simp only
  constructor
  · intro hcon
    by_contra hc
    rw [if_neg hc] at hcon
    cases hcon
  · intro hgt
    rw [if_pos hgt]

/-- Witness for claim C3: a 3-byte payload on a 1x1 carrier (capacity 0)
overflows. -/
theorem claim_C3_witness :
    concealM [1, 2, 3] img11 1 = .error .capacityOverflow ↔
      ((([1, 2, 3] : List Nat).length : Nat) : Int) >
        (CalculateCapacity img11.width img11.height 3 2 : Int) -
          (([1, 3] : List Nat).length : Nat) :=
  claim_C3_capacity_iff [1, 2, 3] img11 1 [1, 3] (by decide)

/-- Decoding checks of one produced header: headerBytes yields the index byte
followed by the little-endian length bytes, its length is 1 + k, the hmap class
of the index byte recovers k, and Reveal's bit loop decodes the length back. -/
def headCheck (L k idx : Nat) : Prop :=
  headerBytesM L idx = .ok (idx :: leBytes L (bytecount L)) ∧
  (idx :: leBytes L (bytecount L)).length = 1 + k ∧
  hmapM idx + 1 = k ∧
  clenBits (leBytes L (bytecount L)) = L

instance headCheckDec (L k idx : Nat) : Decidable (headCheck L k idx) := by
  unfold headCheck
  infer_instance

/-- Claim C5: header self-description at the seven boundary lengths 0, 255,
256, 65535, 65536, 16777215, 16777216, for every index byte of the selected
class: decoding the produced header yields exactly the length, and the header
has 1 + k bytes with k = 1, 1, 2, 2, 3, 3, 4 respectively. -/
theorem claim_C5_header_selfdesc :
    (∀ idx ∈ hcoderList (classOf 0), headCheck 0 1 idx) ∧
    (∀ idx ∈ hcoderList (classOf 255), headCheck 255 1 idx) ∧
    (∀ idx ∈ hcoderList (classOf 256), headCheck 256 2 idx) ∧
    (∀ idx ∈ hcoderList (classOf 65535), headCheck 65535 2 idx) ∧
    (∀ idx ∈ hcoderList (classOf 65536), headCheck 65536 3 idx) ∧
    (∀ idx ∈ hcoderList (classOf 16777215), headCheck 16777215 3 idx) ∧
    (∀ idx ∈ hcoderList (classOf 16777216), headCheck 16777216 4 idx) := by
  decide

/-- Witness for claim C5 at the class-0 index byte 1 and length 0. -/
theorem claim_C5_witness : headCheck 0 1 1 :=
  claim_C5_header_selfdesc.1 1 (by decide)

/-- Claim C9: initHCoder partitions 1..255 into the four classes by
first-match priority, every value maps through hmap to the unique class list
containing it, all four classes are non-empty, and 0 is classified by no case
(its hmap entry is absent). The tables are plain definitions, so no Conceal or
Reveal call can change them. -/
theorem claim_C9_partition :
    (∀ v, v < 256 → 1 ≤ v →
      v ∈ hcoderList (hmapM v) ∧ hmapM v < 4 ∧
      (∀ c, c < 4 → v ∈ hcoderList c → c = hmapM v) ∧
      hmapM v = (if v % 4 = 0 then 3 else if v % 3 = 0 then 2
                 else if v % 2 = 0 then 1 else 0)) ∧
    (∀ c, c < 4 → hcoderList c ≠ []) ∧
    (∀ c, c < 4 → 0 ∉ hcoderList c) ∧
    classifyByte 0 = none := by
  exact ⟨by decide, by decide, by decide, by decide⟩

/-- Witness for claim C9 at v = 6 (divisible by 3, not by 4: class 2). -/
theorem claim_C9_witness : 6 ∈ hcoderList (hmapM 6) ∧ hmapM 6 < 4 :=
  ⟨(claim_C9_partition.1 6 (by decide) (by decide)).1,
   (claim_C9_partition.1 6 (by decide) (by decide)).2.1⟩

lemma concealCellVal_nil (hdata : List Nat) (s abi v : Nat) :
    concealCellVal hdata [] s abi v = v := by
  simp [concealCellVal]

lemma concealPixel_nil (hdata : List Nat) (s pxi : Nat) (p : Pixel) :
    concealPixel hdata [] s pxi p = ⟨n16 p.r, n16 p.g, n16 p.b, n16 p.a⟩ := by
  simp only [concealPixel, concealCellVal_nil]

/-- Claim C10: on a carrier whose capacity covers the 2-byte header for
length 0, Conceal of the empty payload succeeds and returns exactly the
normalized copy of the source pixels — no bits are modified, header cells
included, because every write is guarded by dbi < len(data) = 0. The result
holds for every index byte, used or not. -/
theorem claim_C10_empty_payload (img : Image) (idx : Nat)
    (hcap : 2 ≤ CalculateCapacity img.width img.height 3 2) :
    concealM [] img idx = .ok ⟨img.width, img.height,
      img.pixels.map (fun p => ⟨n16 p.r, n16 p.g, n16 p.b, n16 p.a⟩)⟩ := by
  have hl2 : (idx :: leBytes (List.length ([] : List Nat))
      (bytecount (List.length ([] : List Nat)))).length = 2 := by
    rw [List.length_cons, leBytes_length]
    decide
  rw [concealM_ok [] img idx (by norm_num)
    (by
      rw [hl2]
      simp only [List.length_nil]
      push_cast
      omega)]
  refine congrArg Except.ok (congrArg (Image.mk img.width img.height) ?_)
  have h1 : (fun pe : Nat × Pixel =>
      concealPixel (idx :: leBytes (List.length ([] : List Nat))
        (bytecount (List.length ([] : List Nat)))) []
        (concealStep (CalculateCapacity img.width img.height 3 2)
          (idx :: leBytes (List.length ([] : List Nat))
            (bytecount (List.length ([] : List Nat)))).length
          (List.length ([] : List Nat))) pe.1 pe.2) =
      (fun p : Pixel => (⟨n16 p.r, n16 p.g, n16 p.b, n16 p.a⟩ : Pixel)) ∘ Prod.snd :=
    funext fun pe => concealPixel_nil _ _ _ _
  rw [h1, ← List.map_map, List.enum_map_snd]

/-- Witness for claim C10 on the black opaque 2-by-2 carrier with index byte 1. -/
theorem claim_C10_witness :
    2 ≤ CalculateCapacity imgB2.width imgB2.height 3 2 ∧
    concealM [] imgB2 1 = .ok ⟨imgB2.width, imgB2.height,
      imgB2.pixels.map (fun p => ⟨n16 p.r, n16 p.g, n16 p.b, n16 p.a⟩)⟩ :=
  ⟨by decide, claim_C10_empty_payload imgB2 1 (by decide)⟩

/-- Claim C6: the stride Conceal computes equals floor((cap - header_len) / L * 4)
under exact rational arithmetic, and Reveal recomputes exactly the same stride
from the recovered length. Both sides are plain functions of (W, H, header
length, L), so the stride is deterministic and independent of the random index
byte. The float64 arithmetic of the source is modelled as exact: for every
representable cap and L the double-precision quotient truncates to the same
integer (reason recorded with the claim). -/
theorem claim_C6_stride (W H hlen L : Nat) (hL : 1 ≤ L)
    (hle : hlen ≤ CalculateCapacity W H 3 2) :
    (concealStep (CalculateCapacity W H 3 2) hlen L : Int) =
      ⌊((CalculateCapacity W H 3 2 : ℚ) - hlen) / L * 4⌋ ∧
    revealStep (CalculateCapacity W H 3 2) hlen L =
      (concealStep (CalculateCapacity W H 3 2) hlen L : Int) := by
  set c := CalculateCapacity W H 3 2 with hc
  constructor
  · rw [show ((c : ℚ) - hlen) = ((c - hlen : Nat) : ℚ) from (Nat.cast_sub hle).symm]
    rw [show (((c - hlen : Nat) : ℚ)) / L * 4 =
        (((c - hlen) * 4 : Nat) : ℚ) / ((L : Nat) : ℚ) by push_cast; ring]
    rw [Rat.floor_natCast_div_natCast]
    simp only [concealStep, Int.natCast_div]
  · simp only [revealStep, concealStep]
    rw [if_neg (by omega : ¬L = 0)]
    rw [show ((c : Int) - hlen) * 4 = (((c - hlen) * 4 : Nat) : Int) by
      push_cast [hle]
      ring]
    rw [tdiv_cast]

/-- Witness for claim C6 on a 20-by-20 carrier (capacity 300) with a 3-byte
header and payload length 100: the stride is 11 on both sides. -/
theorem claim_C6_witness :
    1 ≤ 100 ∧ 3 ≤ CalculateCapacity 20 20 3 2 ∧
    ((concealStep (CalculateCapacity 20 20 3 2) 3 100 : Int) =
      ⌊((CalculateCapacity 20 20 3 2 : ℚ) - 3) / 100 * 4⌋ ∧
     revealStep (CalculateCapacity 20 20 3 2) 3 100 =
      (concealStep (CalculateCapacity 20 20 3 2) 3 100 : Int)) :=
  ⟨by norm_num, by decide, claim_C6_stride 20 20 3 100 (by norm_num) (by decide)⟩

/-- The cells Conceal writes: header cells abi < hlen*4 whose byte index abi/4
is below len(data) (the guard tests len(data), not hlen), and content cells
whose in-byte bit offset is below 8 and whose byte index is below len(data). -/
def cellWritten (hlen dlen stepv abi : Nat) : Prop :=
  (abi < hlen * 4 ∧ abi / 4 < dlen) ∨
  (hlen * 4 ≤ abi ∧ (abi - hlen * 4) % stepv * 2 < 8 ∧ (abi - hlen * 4) / stepv < dlen)

lemma concealCellVal_div4 (hd data : List Nat) (s abi v : Nat) (hv : v < 256) :
    concealCellVal hd data s abi v / 4 = v / 4 := by
  simp only [concealCellVal]
  split_ifs with h1 h2 h3
  · exact chunk_div4 _ _ _ hv
  · rfl
  · exact chunk_div4 _ _ _ hv
  · rfl

lemma concealCellVal_unwritten (hd data : List Nat) (s abi v : Nat)
    (hnw : ¬ cellWritten hd.length data.length s abi) :
    concealCellVal hd data s abi v = v := by
  simp only [concealCellVal]
  split_ifs with habi hc1 hc2
  · exact absurd (Or.inl ⟨habi, hc1.2⟩) hnw
  · rfl
  · exact absurd (Or.inr ⟨Nat.le_of_not_lt habi, hc2.1, hc2.2⟩) hnw
  · rfl

/-- Claim C7: the grid Conceal produces has the source's dimensions; every
output R, G, B channel agrees with the normalized source channel on the upper
6 bits; alpha is exactly the normalized source alpha; and every encoding cell
outside the header and content placement (cellWritten) keeps even its two
least-significant bits. -/
theorem claim_C7_frame (data : List Nat) (img : Image) (idx : Nat)
    (hch : ∀ p ∈ img.pixels, p.r < 65536 ∧ p.g < 65536 ∧ p.b < 65536)
    (h32 : data.length < 2 ^ 32)
    (hcap : ¬((data.length : Int) > (CalculateCapacity img.width img.height 3 2 : Int) -
      (idx :: leBytes data.length (bytecount data.length)).length))
    (hd : List Nat) (hhd : hd = idx :: leBytes data.length (bytecount data.length))
    (s : Nat) (hs : s = concealStep (CalculateCapacity img.width img.height 3 2)
      hd.length data.length) :
    ∃ out, concealM data img idx = .ok out ∧
      out.width = img.width ∧ out.height = img.height ∧
      out.pixels.length = img.pixels.length ∧
      ∀ i < img.pixels.length,
        (out.pixels.getD i ⟨0, 0, 0, 0⟩).a = n16 ((img.pixels.getD i ⟨0, 0, 0, 0⟩).a) ∧
        (out.pixels.getD i ⟨0, 0, 0, 0⟩).r / 4 = n16 ((img.pixels.getD i ⟨0, 0, 0, 0⟩).r) / 4 ∧
        (out.pixels.getD i ⟨0, 0, 0, 0⟩).g / 4 = n16 ((img.pixels.getD i ⟨0, 0, 0, 0⟩).g) / 4 ∧
        (out.pixels.getD i ⟨0, 0, 0, 0⟩).b / 4 = n16 ((img.pixels.getD i ⟨0, 0, 0, 0⟩).b) / 4 ∧
        (¬ cellWritten hd.length data.length s (i * 3) →
          (out.pixels.getD i ⟨0, 0, 0, 0⟩).r = n16 ((img.pixels.getD i ⟨0, 0, 0, 0⟩).r)) ∧
        (¬ cellWritten hd.length data.length s (i * 3 + 1) →
          (out.pixels.getD i ⟨0, 0, 0, 0⟩).g = n16 ((img.pixels.getD i ⟨0, 0, 0, 0⟩).g)) ∧
        (¬ cellWritten hd.length data.length s (i * 3 + 2) →
          (out.pixels.getD i ⟨0, 0, 0, 0⟩).b = n16 ((img.pixels.getD i ⟨0, 0, 0, 0⟩).b)) := by
  have hok : concealM data img idx = .ok ⟨img.width, img.height,
      img.pixels.enum.map (fun pe => concealPixel hd data s pe.1 pe.2)⟩ := by
    rw [hs, hhd]
    exact concealM_ok data img idx h32 hcap
  refine ⟨_, hok, rfl, rfl, ?_, ?_⟩
  · dsimp only
    rw [List.length_map, List.enum_length]
  · intro i hi
    dsimp only
    have hq : (img.pixels.enum.map (fun pe => concealPixel hd data s pe.1 pe.2)).getD i
        ⟨0, 0, 0, 0⟩ = concealPixel hd data s i (img.pixels.getD i ⟨0, 0, 0, 0⟩) := by
      rw [List.getD_eq_getElem _ _ (by rw [List.length_map, List.enum_length]; exact hi),
          List.getElem_map, List.getElem_enum, List.getD_eq_getElem _ _ hi]
    rw [hq]
    have hmem : img.pixels.getD i ⟨0, 0, 0, 0⟩ ∈ img.pixels := by
      rw [List.getD_eq_getElem _ _ hi]
      exact List.getElem_mem hi
    obtain ⟨hr, hg, hb⟩ := hch _ hmem
    have h256 : ∀ v, v < 65536 → n16 v < 256 := fun v hv => by
      simp only [n16]
      omega
    simp only [concealPixel]
    exact ⟨trivial, concealCellVal_div4 _ _ _ _ _ (h256 _ hr),
      concealCellVal_div4 _ _ _ _ _ (h256 _ hg),
      concealCellVal_div4 _ _ _ _ _ (h256 _ hb),
      fun hnw => concealCellVal_unwritten hd data s _ _ hnw,
      fun hnw => concealCellVal_unwritten hd data s _ _ hnw,
      fun hnw => concealCellVal_unwritten hd data s _ _ hnw⟩

/-- Witness for claim C7: the payload [7, 8] on the black opaque 2-by-3
carrier with index byte 1, header [1, 2] and stride 4. -/
theorem claim_C7_witness :
    ∃ out, concealM [7, 8] imgB23 1 = .ok out ∧
      out.width = imgB23.width ∧ out.height = imgB23.height ∧
      out.pixels.length = imgB23.pixels.length ∧
      ∀ i < imgB23.pixels.length,
        (out.pixels.getD i ⟨0, 0, 0, 0⟩).a = n16 ((imgB23.pixels.getD i ⟨0, 0, 0, 0⟩).a) ∧
        (out.pixels.getD i ⟨0, 0, 0, 0⟩).r / 4 =
          n16 ((imgB23.pixels.getD i ⟨0, 0, 0, 0⟩).r) / 4 ∧
        (out.pixels.getD i ⟨0, 0, 0, 0⟩).g / 4 =
          n16 ((imgB23.pixels.getD i ⟨0, 0, 0, 0⟩).g) / 4 ∧
        (out.pixels.getD i ⟨0, 0, 0, 0⟩).b / 4 =
          n16 ((imgB23.pixels.getD i ⟨0, 0, 0, 0⟩).b) / 4 ∧
        (¬ cellWritten 2 2 4 (i * 3) →
          (out.pixels.getD i ⟨0, 0, 0, 0⟩).r = n16 ((imgB23.pixels.getD i ⟨0, 0, 0, 0⟩).r)) ∧
        (¬ cellWritten 2 2 4 (i * 3 + 1) →
          (out.pixels.getD i ⟨0, 0, 0, 0⟩).g = n16 ((imgB23.pixels.getD i ⟨0, 0, 0, 0⟩).g)) ∧
        (¬ cellWritten 2 2 4 (i * 3 + 2) →
          (out.pixels.getD i ⟨0, 0, 0, 0⟩).b = n16 ((imgB23.pixels.getD i ⟨0, 0, 0, 0⟩).b)) :=
  claim_C7_frame [7, 8] imgB23 1 (by decide) (by decide) (by decide)
    [1, 2] (by decide) 4 (by decide)
